import Mathlib

/-!
Shallow embedding of the git-id identity-to-remote reconciliation core
(src/git.rs, src/config.rs, src/ssh.rs, src/commands/use_cmd.rs,
src/commands/add.rs), modelling Rust strings as lists of characters.
-/

namespace GitId

/-- Strings are modelled as lists of characters. -/
abbrev Str : Type := List Char

/-- Account record, mirroring `models.rs::Account`. -/
structure Account where
  username : Str
  email : Str
  host : Str
  ssh_key : Str
  https_token : Str
deriving DecidableEq, Repr

/-- The effective host: empty `host` is read as "github.com"
(the repeated `if acc.host.is_empty() ...` in the source). -/
def effHost (a : Account) : Str :=
  if a.host = [] then "github.com".data else a.host

/-- `config.rs::account_id`: `"{username}@{host}"` with the empty-host default. -/
def account_id (a : Account) : Str :=
  a.username ++ '@' :: effHost a

/-- `config.rs::ssh_host_alias`: `"{host}-{username}"` with the empty-host default. -/
def ssh_host_alias (a : Account) : Str :=
  effHost a ++ '-' :: a.username

/-- Split a list at the first occurrence of `c`: returns the part before and
the part after, mirroring `str::find` plus slicing / `split_once`. -/
def splitFirst (c : Char) : Str → Option (Str × Str)
  | [] => none
  | x :: xs =>
    if x = c then some ([], xs)
    else (splitFirst c xs).map (fun p => (x :: p.1, p.2))

/-- Split a list at the last occurrence of `c`, mirroring `str::rfind` plus
slicing. -/
def splitLast (c : Char) (s : Str) : Option (Str × Str) :=
  match splitFirst c s.reverse with
  | none => none
  | some (a, b) => some (b.reverse, a.reverse)

/-- Strip a literal prefix, mirroring `str::strip_prefix`. -/
def dropPfx : Str → Str → Option Str
  | [], s => some s
  | _ :: _, [] => none
  | p :: ps, c :: cs => if c = p then dropPfx ps cs else none

/-- Fuel-driven helper for `trim_end_matches(".git")`: on a reversed list,
repeatedly strip the leading reversed ".git". The fuel only needs to be at
least the list length. -/
def trimRevGitAux : Nat → Str → Str
  | 0, l => l
  | Nat.succ n, l =>
    if l.take 4 = ['t', 'i', 'g', '.'] then trimRevGitAux n (l.drop 4) else l

/-- Repeatedly strip the leading reversed ".git" from a reversed list. -/
def trimRevGit (l : Str) : Str :=
  trimRevGitAux l.length l

/-- `str::trim_end_matches(".git")`: removes every trailing ".git". -/
def trimEndDotGit (s : Str) : Str :=
  (trimRevGit s.reverse).reverse

/-- `str::splitn(n, c)`: at most `n` parts, the last part keeps any
remaining separators. -/
def splitn (n : Nat) (c : Char) (s : Str) : List Str :=
  match n with
  | 0 => []
  | 1 => [s]
  | Nat.succ (Nat.succ m) =>
    match splitFirst c s with
    | none => [s]
    | some (a, b) => a :: splitn (m + 1) c b

/-- `git.rs::strip_host_alias_suffix`: drop a trailing `-suffix` when the
suffix contains no dot. -/
def strip_host_alias_suffix (raw : Str) : Str :=
  match splitLast '-' raw with
  | some (pre, suf) => if '.' ∈ suf then raw else pre
  | none => raw

/-- Transport kind; the source uses the strings "ssh" and "https". -/
inductive Transport where
  | ssh
  | https
deriving DecidableEq, Repr

/-- The `git@` branch of `git.rs::parse_remote_url`. -/
def parseSsh (url : Str) : Option (Transport × Str × Str × Str) :=
  match dropPfx "git@".data url with
  | none => none
  | some rest =>
    match splitFirst ':' rest with
    | none => none
    | some (raw_host, path0) =>
      match splitFirst '/' (trimEndDotGit path0) with
      | none => none
      | some (owner, repo) =>
        some (Transport.ssh, strip_host_alias_suffix raw_host, owner, repo)

/-- The credential strip in the `https://` branch: drop everything up to and
including the first `@`, when present. -/
def stripCred (rest0 : Str) : Str :=
  match splitFirst '@' rest0 with
  | some pr => pr.2
  | none => rest0

/-- The `https://` branch of `git.rs::parse_remote_url`. -/
def parseHttps (url : Str) : Option (Transport × Str × Str × Str) :=
  match dropPfx "https://".data url with
  | none => none
  | some rest0 =>
    match splitn 3 '/' (trimEndDotGit (stripCred rest0)) with
    | [h, o, r] => some (Transport.https, h, o, r)
    | _ => none

/-- `git.rs::parse_remote_url`: try the `git@` shape, then the `https://`
shape, else fail. -/
def parse_remote_url (url : Str) : Option (Transport × Str × Str × Str) :=
  match parseSsh url with
  | some r => some r
  | none => parseHttps url

/-- `git.rs::build_ssh_url`: `git@{alias}:{owner}/{repo}.git`. -/
def build_ssh_url (acc : Account) (owner repo : Str) : Str :=
  "git@".data ++ ssh_host_alias acc ++ ':' :: owner ++ '/' :: repo ++ ".git".data

/-- `git.rs::build_https_url`: token-embedded when the token is non-empty. -/
def build_https_url (token host owner repo : Str) : Str :=
  if token = [] then
    "https://".data ++ host ++ '/' :: owner ++ '/' :: repo ++ ".git".data
  else
    "https://".data ++ token ++ '@' :: host ++ '/' :: owner ++ '/' :: repo ++ ".git".data

end GitId

namespace GitId

/-- Per-remote outcome of `use_cmd.rs::update_matching_remotes`'s loop body. -/
inductive Outcome where
  | emptySkip
  | unparsedWarnSkip
  | filteredSkip
  | setUrl (url : Str)
  | warnFallbackSet (url : Str)
deriving DecidableEq, Repr

/-- The loop body of `use_cmd.rs::update_matching_remotes` for one remote,
given its name and current URL. -/
def processRemote (acc : Account) (force_ssh force_https : Bool)
    (name url : Str) : Outcome :=
  if url = [] then Outcome.emptySkip
  else
    match parse_remote_url url with
    | none => Outcome.unparsedWarnSkip
    | some (fmt, host, owner, repo) =>
      let aliasPfx : Str := "git@".data ++ ssh_host_alias acc ++ [':']
      if name = "origin".data ∨ (host = effHost acc ∧ owner = acc.username) ∨
          aliasPfx.isPrefixOf url then
        let target := if force_ssh then Transport.ssh
          else if force_https then Transport.https else fmt
        match target with
        | Transport.ssh =>
          if acc.ssh_key = [] then
            Outcome.warnFallbackSet (build_https_url acc.https_token host owner repo)
          else
            Outcome.setUrl (build_ssh_url acc owner repo)
        | Transport.https =>
          Outcome.setUrl (build_https_url acc.https_token host owner repo)
      else Outcome.filteredSkip

/-- Result of `use_cmd.rs::update_matching_remotes` at the list level. -/
inductive RunResult where
  | noRemotes
  | conflictDie
  | ran (outcomes : List Outcome)
deriving DecidableEq, Repr

/-- `use_cmd.rs::update_matching_remotes`: the early no-remotes return, then
the conflicting-flags die, then the per-remote loop. Remotes are given as
(name, current URL) pairs. -/
def update_matching_remotes (acc : Account) (force_ssh force_https : Bool)
    (remotes : List (Str × Str)) : RunResult :=
  if remotes = [] then RunResult.noRemotes
  else if force_ssh ∧ force_https then RunResult.conflictDie
  else RunResult.ran (remotes.map fun p => processRemote acc force_ssh force_https p.1 p.2)

/-- Observable mutation events of `use_cmd.rs::cmd_use` in local scope. -/
inductive Event where
  | setConfig (key value : Str)
  | setRemote (name url : Str)
  | dieConflict
deriving DecidableEq, Repr

/-- The set-url events issued by one processed remote. -/
def outcomeEvents (name : Str) : Outcome → List Event
  | Outcome.setUrl u => [Event.setRemote name u]
  | Outcome.warnFallbackSet u => [Event.setRemote name u]
  | _ => []

/-- Mutation-event trace of `update_matching_remotes`. -/
def remoteEvents (acc : Account) (force_ssh force_https : Bool)
    (remotes : List (Str × Str)) : List Event :=
  if remotes = [] then []
  else if force_ssh ∧ force_https then [Event.dieConflict]
  else remotes.flatMap fun p =>
    outcomeEvents p.1 (processRemote acc force_ssh force_https p.1 p.2)

/-- Mutation-event trace of `use_cmd.rs::cmd_use` with local scope: the two
`git config` writes happen first, then remote processing. -/
def cmd_use_local (acc : Account) (force_ssh force_https : Bool)
    (remotes : List (Str × Str)) : List Event :=
  Event.setConfig "user.name".data acc.username ::
    Event.setConfig "user.email".data acc.email ::
      remoteEvents acc force_ssh force_https remotes

/-- The URL an outcome writes, if any. -/
def urlOf : Outcome → Option Str
  | Outcome.setUrl u => some u
  | Outcome.warnFallbackSet u => some u
  | _ => none

/-- Whether an outcome issues a `git remote set-url`. -/
def setsUrl (o : Outcome) : Bool :=
  (urlOf o).isSome

/-- Whether an event is a remote-URL mutation. -/
def isSetRemote : Event → Bool
  | Event.setRemote _ _ => true
  | _ => false

end GitId

namespace GitId

/-- Lookup result of `config.rs::find_account`. -/
inductive FindResult where
  | found (a : Account)
  | notFound
  | ambiguous (hints : List Str)
deriving DecidableEq, Repr

/-- `config.rs::find_account` over an explicit account list: a key containing
`@` is split at the first `@` and matched against the RAW stored pair;
otherwise username-only lookup with the ambiguity die. -/
def find_account (accounts : List Account) (key : Str) : FindResult :=
  match splitFirst '@' key with
  | some (uname, host) =>
    match accounts.find? (fun a => decide (a.username = uname ∧ a.host = host)) with
    | some a => FindResult.found a
    | none => FindResult.notFound
  | none =>
    match accounts.filter (fun a => decide (a.username = key)) with
    | [a] => FindResult.found a
    | [] => FindResult.notFound
    | ms =>
      FindResult.ambiguous (ms.map fun a =>
        Char.ofNat 39 :: (key ++ '@' :: effHost a) ++ [Char.ofNat 39])

/-- Whether `pat` occurs in `s` at index `i` (substring match). -/
def occurAt (pat s : Str) (i : Nat) : Prop :=
  (s.drop i).take pat.length = pat

instance (pat s : Str) (i : Nat) : Decidable (occurAt pat s i) := by
  unfold occurAt
  infer_instance

/-- `str::find` for a pattern: index of the first occurrence. -/
def firstOcc (pat : Str) : Str → Option Nat
  | [] => if pat = [] then some 0 else none
  | c :: cs =>
    if (c :: cs).take pat.length = pat then some 0
    else (firstOcc pat cs).map (· + 1)

/-- `str::contains` for a pattern. -/
def containsStr (s pat : Str) : Bool :=
  (firstOcc pat s).isSome

/-- `ssh.rs::MARKER_S` with `{id}` substituted. -/
def markerS (id : Str) : Str :=
  "# >>> git-id: ".data ++ id ++ " >>>".data

/-- `ssh.rs::MARKER_E` with `{id}` substituted. -/
def markerE (id : Str) : Str :=
  "# <<< git-id: ".data ++ id ++ " <<<".data

/-- The keyfile rendered into a stanza, with the default path when the
account has no key. -/
def stanzaKeyfile (acc : Account) : Str :=
  if acc.ssh_key = [] then "~/.ssh/id_ed25519_".data ++ acc.username
  else acc.ssh_key

/-- `ssh.rs::make_stanza`: the markered per-account stanza text. -/
def make_stanza (acc : Account) : Str :=
  markerS (account_id acc) ++ '\n' :: "Host ".data ++ ssh_host_alias acc ++
    "\n    HostName ".data ++ effHost acc ++
      "\n    User git\n    IdentityFile ".data ++ stanzaKeyfile acc ++
        "\n    IdentitiesOnly yes\n".data ++ markerE (account_id acc) ++ ['\n']

/-- `ssh.rs::replace_stanza`: find the start marker, find the end marker
forward from it, and splice in the replacement (swallowing one trailing
newline after the end marker when present). -/
def replace_stanza (content start endM repl : Str) : Str :=
  match firstOcc start content with
  | none => content
  | some p =>
    match firstOcc endM (content.drop p) with
    | none => content
    | some e =>
      let endPos0 := p + e + endM.length
      let endPos := if content[endPos0]? = some '\n' then endPos0 + 1 else endPos0
      content.take p ++ repl ++ content.drop endPos

/-- Strip leading newlines of a reversed list
(helper for `trim_end_matches('\n')`). -/
def trimNlRev : Str → Str
  | [] => []
  | c :: cs => if c = '\n' then trimNlRev cs else c :: cs

/-- `str::trim_end_matches('\n')`. -/
def trimEndNl (s : Str) : Str :=
  (trimNlRev s.reverse).reverse

/-- The per-account loop body of `ssh.rs::update_ssh_config`: replace the
markered region when the start marker is present, else append the stanza
after a normalized blank-line separator. -/
def update_ssh_config_step (existing : Str) (acc : Account) : Str :=
  let stanza := make_stanza acc
  let start := markerS (account_id acc)
  let endM := markerE (account_id acc)
  if containsStr existing start then replace_stanza existing start endM stanza
  else trimEndNl existing ++ '\n' :: '\n' :: stanza

/-- Result of the duplicate gate in `add.rs::cmd_add`. -/
inductive AddResult where
  | rejected
  | added (accounts : List Account)
deriving DecidableEq, Repr

/-- The duplicate check and insertion of `add.rs::cmd_add`: rejects when some
stored account has the same RAW (username, host) pair, else appends. -/
def cmd_add_check (accounts : List Account) (acc : Account) : AddResult :=
  if accounts.any (fun a => decide (a.username = acc.username ∧ a.host = acc.host)) then
    AddResult.rejected
  else
    AddResult.added (accounts ++ [acc])

/-! ### Concrete accounts used in counterexamples and witnesses -/

/-- An account with an SSH key and the default (empty) host field. -/
def aliceKey : Account :=
  ⟨"alice".data, "a@ex.io".data, [], "~/.ssh/id_alice".data, []⟩

/-- An account stored with an empty host field. -/
def accEmptyHost : Account :=
  ⟨"alice".data, [], [], [], []⟩

/-- The same identity as `accEmptyHost` but with the host written out. -/
def accGhHost : Account :=
  ⟨"alice".data, [], "github.com".data, [], []⟩

/-- An account with an SSH key and no HTTPS token. -/
def bobTok : Account :=
  ⟨"bob".data, [], [], "~/.ssh/id_bob".data, []⟩

/-- An account with no SSH key and a non-empty HTTPS token. -/
def carolTok : Account :=
  ⟨"carol".data, [], [], [], "tok123".data⟩

/-- An account whose ssh_key embeds the end marker of its own stanza. -/
def injAcc : Account :=
  ⟨"a".data, [], "b".data, "x\n# <<< git-id: a@b <<<".data, []⟩

end GitId

namespace GitId

/-! ### Lemmas about the splitting primitives -/

theorem splitFirst_append {c : Char} {xs : Str} (ys : Str) (h : c ∉ xs) :
    splitFirst c (xs ++ c :: ys) = some (xs, ys) := by
  induction xs with
  | nil => simp [splitFirst]
  | cons x xt ih =>
    simp only [List.mem_cons, not_or] at h
    have hx : x ≠ c := fun hh => h.1 hh.symm
    simp [splitFirst, hx, ih h.2]

theorem splitFirst_eq_none {c : Char} {s : Str} (h : c ∉ s) :
    splitFirst c s = none := by
  induction s with
  | nil => rfl
  | cons x xt ih =>
    simp only [List.mem_cons, not_or] at h
    simp [splitFirst, Ne.symm h.1, ih h.2]

theorem splitFirst_eq_some {c : Char} {s a b : Str}
    (h : splitFirst c s = some (a, b)) : s = a ++ c :: b ∧ c ∉ a := by
  induction s generalizing a b with
  | nil => simp [splitFirst] at h
  | cons x xt ih =>
    rw [splitFirst] at h
    by_cases hx : x = c
    · rw [if_pos hx] at h
      injection h with h'
      injection h' with ha hb
      subst ha
      subst hb
      simp [hx]
    · rw [if_neg hx] at h
      cases hsp : splitFirst c xt with
      | none =>
        rw [hsp] at h
        simp at h
      | some pr =>
        obtain ⟨a', b'⟩ := pr
        rw [hsp] at h
        simp only [Option.map_some'] at h
        injection h with h'
        injection h' with ha hb
        subst ha
        subst hb
        obtain ⟨h1, h2⟩ := ih hsp
        refine ⟨by simp [h1], ?_⟩
        simp only [List.mem_cons, not_or]
        exact ⟨fun hh => hx hh.symm, h2⟩

theorem splitLast_append {c : Char} (xs : Str) {ys : Str} (h : c ∉ ys) :
    splitLast c (xs ++ c :: ys) = some (xs, ys) := by
  have hrev : (xs ++ c :: ys).reverse = ys.reverse ++ c :: xs.reverse := by
    simp
  have hmem : c ∉ ys.reverse := by simpa using h
  simp [splitLast, hrev, splitFirst_append _ hmem]

theorem dropPfx_append (p rest : Str) : dropPfx p (p ++ rest) = some rest := by
  induction p with
  | nil => rfl
  | cons x xt ih => simp [dropPfx, ih]

/-! ### Lemmas about the ".git" trimming -/

/-- A reversed string that begins with the reversed ".git". -/
abbrev startsTig (l : Str) : Prop :=
  l.take 4 = ['t', 'i', 'g', '.']

/-- The string ends with ".git". -/
abbrev endsDotGit (s : Str) : Prop :=
  startsTig s.reverse

theorem trimRevGitAux_congr :
    ∀ n m l, l.length ≤ n → l.length ≤ m → trimRevGitAux n l = trimRevGitAux m l := by
  intro n
  induction n with
  | zero =>
    intro m l hn _
    have : l = [] := List.length_eq_zero.mp (Nat.le_zero.mp hn)
    subst this
    cases m with
    | zero => rfl
    | succ m => simp [trimRevGitAux]
  | succ n ih =>
    intro m l hn hm
    cases m with
    | zero =>
      have : l = [] := List.length_eq_zero.mp (Nat.le_zero.mp hm)
      subst this
      simp [trimRevGitAux]
    | succ m =>
      rw [trimRevGitAux, trimRevGitAux]
      by_cases h : l.take 4 = ['t', 'i', 'g', '.']
      · rw [if_pos h, if_pos h]
        have h4 : 4 ≤ l.length := by
          have := congrArg List.length h
          simp [List.length_take] at this
          omega
        have hlen : (l.drop 4).length ≤ n := by
          simp [List.length_drop]
          omega
        have hlen' : (l.drop 4).length ≤ m := by
          simp [List.length_drop]
          omega
        exact ih m (l.drop 4) hlen hlen'
      · rw [if_neg h, if_neg h]

theorem trimRevGitAux_eq_trimRevGit {n : Nat} {l : Str} (h : l.length ≤ n) :
    trimRevGitAux n l = trimRevGit l :=
  trimRevGitAux_congr n l.length l h le_rfl

theorem trimRevGit_eq_self {l : Str} (h : ¬ startsTig l) : trimRevGit l = l := by
  unfold trimRevGit
  rcases hn : l.length with _ | n
  · rfl
  · rw [trimRevGitAux, if_neg h]

theorem trimRevGit_cons (rest : Str) :
    trimRevGit ('t' :: 'i' :: 'g' :: '.' :: rest) = trimRevGit rest := by
  have hlen : ('t' :: 'i' :: 'g' :: '.' :: rest).length = rest.length + 4 := by
    simp only [List.length_cons]
  unfold trimRevGit
  rw [hlen]
  rw [show rest.length + 4 = (rest.length + 3) + 1 from rfl, trimRevGitAux]
  rw [if_pos (show List.take 4 ('t' :: 'i' :: 'g' :: '.' :: rest) = ['t', 'i', 'g', '.'] from rfl)]
  show trimRevGitAux (rest.length + 3) rest = trimRevGitAux rest.length rest
  exact trimRevGitAux_congr _ _ rest (Nat.le_add_right _ _) le_rfl

theorem trimRevGit_not_startsTig (l : Str) : ¬ startsTig (trimRevGit l) := by
  unfold trimRevGit
  generalize hn : l.length = n
  have hle : l.length ≤ n := hn.le
  clear hn
  induction n generalizing l with
  | zero =>
    have : l = [] := List.length_eq_zero.mp (Nat.le_zero.mp hle)
    subst this
    decide
  | succ n ih =>
    rw [trimRevGitAux]
    by_cases h : l.take 4 = ['t', 'i', 'g', '.']
    · rw [if_pos h]
      have h4 : 4 ≤ l.length := by
        have := congrArg List.length h
        simp [List.length_take] at this
        omega
      exact ih (l.drop 4) (by simp [List.length_drop]; omega)
    · rw [if_neg h]
      exact h

theorem startsTig_append_slash {xs : Str} (ys : Str) (h : ¬ startsTig xs) :
    ¬ startsTig (xs ++ '/' :: ys) := by
  match xs with
  | [] =>
    intro hc
    have hc' : '/' :: ys.take 3 = ['t', 'i', 'g', '.'] := hc
    injection hc' with h1 _
    exact absurd h1 (by decide)
  | [a] =>
    intro hc
    have hc' : a :: '/' :: ys.take 2 = ['t', 'i', 'g', '.'] := hc
    injection hc' with _ hc2
    injection hc2 with h2 _
    exact absurd h2 (by decide)
  | [a, b] =>
    intro hc
    have hc' : a :: b :: '/' :: ys.take 1 = ['t', 'i', 'g', '.'] := hc
    injection hc' with _ hc2
    injection hc2 with _ hc3
    injection hc3 with h3 _
    exact absurd h3 (by decide)
  | [a, b, c] =>
    intro hc
    have hc' : a :: b :: c :: '/' :: ys.take 0 = ['t', 'i', 'g', '.'] := hc
    injection hc' with _ hc2
    injection hc2 with _ hc3
    injection hc3 with _ hc4
    injection hc4 with h4 _
    exact absurd h4 (by decide)
  | a :: b :: c :: d :: rest =>
    intro hc
    apply h
    have hc' : a :: b :: c :: d :: [] = ['t', 'i', 'g', '.'] := by
      have h1 : List.take 4 (a :: b :: c :: d :: (rest ++ '/' :: ys)) =
          ['t', 'i', 'g', '.'] := hc
      simpa [List.take] using h1
    show List.take 4 (a :: b :: c :: d :: rest) = ['t', 'i', 'g', '.']
    have : List.take 4 (a :: b :: c :: d :: rest) = a :: b :: c :: d :: [] := by
      simp [List.take]
    rw [this, hc']

theorem endsDotGit_slash {O R : Str} (h : ¬ endsDotGit R) :
    ¬ endsDotGit (O ++ '/' :: R) := by
  unfold endsDotGit at h ⊢
  rw [List.reverse_append, List.reverse_cons, List.append_assoc]
  simpa using startsTig_append_slash (O.reverse) h

theorem endsDotGit_of_append {r : Str} (y : Str) (h : endsDotGit r) :
    endsDotGit (y ++ r) := by
  unfold endsDotGit startsTig at h ⊢
  rw [List.reverse_append]
  have h4 : 4 ≤ r.reverse.length := by
    have := congrArg List.length h
    simp [List.length_take] at this
    simp [List.length_reverse]
    omega
  rw [List.take_append_of_le_length h4]
  exact h

theorem trimEndDotGit_append_git {s : Str} (h : ¬ endsDotGit s) :
    trimEndDotGit (s ++ ".git".data) = s := by
  unfold trimEndDotGit
  have hrev : (s ++ ".git".data).reverse = 't' :: 'i' :: 'g' :: '.' :: s.reverse := by
    simp [List.reverse_append]
  rw [hrev, trimRevGit_cons, trimRevGit_eq_self h, List.reverse_reverse]

theorem trimEndDotGit_eq_self {s : Str} (h : ¬ endsDotGit s) :
    trimEndDotGit s = s := by
  unfold trimEndDotGit
  rw [trimRevGit_eq_self h, List.reverse_reverse]

theorem not_endsDotGit_trimEndDotGit (s : Str) : ¬ endsDotGit (trimEndDotGit s) := by
  unfold trimEndDotGit endsDotGit
  rw [List.reverse_reverse]
  exact trimRevGit_not_startsTig s.reverse

/-! ### Lemmas about splitn -/

theorem splitn3_append {h o : Str} (r : Str) (hh : '/' ∉ h) (ho : '/' ∉ o) :
    splitn 3 '/' (h ++ '/' :: o ++ '/' :: r) = [h, o, r] := by
  show splitn (Nat.succ (Nat.succ 1)) '/' _ = _
  rw [splitn, show h ++ '/' :: o ++ '/' :: r = h ++ '/' :: (o ++ '/' :: r) by simp,
    splitFirst_append _ hh]
  show h :: splitn (Nat.succ (Nat.succ 0)) '/' _ = _
  rw [splitn, splitFirst_append _ ho]
  rfl

theorem splitn3_two {c : Char} {b a2 b2 : Str} (hsp2 : splitFirst c b = some (a2, b2)) :
    splitn 2 c b = [a2, b2] := by
  unfold splitn
  rw [hsp2]
  rfl

theorem splitn3_top {c : Char} {s a b : Str} (hsp : splitFirst c s = some (a, b)) :
    splitn 3 c s = a :: splitn 2 c b := by
  unfold splitn
  rw [hsp]
  rfl

theorem splitn3_top_none {c : Char} {s : Str} (hsp : splitFirst c s = none) :
    splitn 3 c s = [s] := by
  unfold splitn
  rw [hsp]

theorem splitn3_two_none {c : Char} {b : Str} (hsp : splitFirst c b = none) :
    splitn 2 c b = [b] := by
  unfold splitn
  rw [hsp]

theorem splitn3_inv {s h o r : Str} (hs : splitn 3 '/' s = [h, o, r]) :
    s = h ++ '/' :: o ++ '/' :: r ∧ '/' ∉ h ∧ '/' ∉ o := by
  cases hsp : splitFirst '/' s with
  | none =>
    rw [splitn3_top_none hsp] at hs
    simp at hs
  | some pr =>
    obtain ⟨a, b⟩ := pr
    rw [splitn3_top hsp] at hs
    cases hsp2 : splitFirst '/' b with
    | none =>
      rw [splitn3_two_none hsp2] at hs
      simp at hs
    | some pr2 =>
      obtain ⟨a2, b2⟩ := pr2
      rw [splitn3_two hsp2] at hs
      simp only [List.cons.injEq] at hs
      obtain ⟨rfl, rfl, rfl, -⟩ := hs
      obtain ⟨hb, hha⟩ := splitFirst_eq_some hsp
      obtain ⟨hb2, hho⟩ := splitFirst_eq_some hsp2
      subst hb2
      exact ⟨by simp [hb], hha, hho⟩

theorem isPrefixOf_append (p t : Str) : List.isPrefixOf p (p ++ t) = true := by
  induction p with
  | nil => simp [List.isPrefixOf]
  | cons x xs ih => simp [List.isPrefixOf, ih]

theorem isPrefixOf_intro {p s : Str} (t : Str) (h : s = p ++ t) :
    List.isPrefixOf p s = true := by
  rw [h]
  exact isPrefixOf_append p t

/-! ### Composition lemmas: parsing a freshly composed URL -/

theorem strip_alias {acc : Account} (hdash : '-' ∉ acc.username)
    (hdot : '.' ∉ acc.username) :
    strip_host_alias_suffix (ssh_host_alias acc) = effHost acc := by
  simp only [strip_host_alias_suffix, ssh_host_alias,
    splitLast_append (effHost acc) hdash, if_neg hdot]

theorem parseSsh_build {acc : Account} {O R : Str}
    (hcolon : ':' ∉ ssh_host_alias acc) (hO : '/' ∉ O) (hR : ¬ endsDotGit R) :
    parseSsh (build_ssh_url acc O R) =
      some (Transport.ssh, strip_host_alias_suffix (ssh_host_alias acc), O, R) := by
  have hurl : build_ssh_url acc O R =
      "git@".data ++ (ssh_host_alias acc ++ ':' :: (O ++ '/' :: R ++ ".git".data)) := by
    simp [build_ssh_url]
  have hd : dropPfx "git@".data (build_ssh_url acc O R) =
      some (ssh_host_alias acc ++ ':' :: (O ++ '/' :: R ++ ".git".data)) := by
    rw [hurl, dropPfx_append]
  simp only [parseSsh, hd, splitFirst_append (O ++ '/' :: R ++ ".git".data) hcolon,
    trimEndDotGit_append_git (endsDotGit_slash hR), splitFirst_append R hO]

theorem parseSsh_https_none (rest : Str) : parseSsh ("https://".data ++ rest) = none := by
  have h1 : dropPfx "git@".data ("https://".data ++ rest) = none := rfl
  unfold parseSsh
  rw [h1]

theorem stripCred_of_no_at {s : Str} (h : '@' ∉ s) : stripCred s = s := by
  unfold stripCred
  rw [splitFirst_eq_none h]

theorem stripCred_append {token : Str} (rest : Str) (h : '@' ∉ token) :
    stripCred (token ++ '@' :: rest) = rest := by
  unfold stripCred
  rw [splitFirst_append rest h]

theorem parseHttps_build {token h o r : Str}
    (hsl : '/' ∉ h) (hso : '/' ∉ o) (hg : ¬ endsDotGit r)
    (htok : token ≠ [] → '@' ∉ token)
    (hat : token = [] → '@' ∉ h ∧ '@' ∉ o ∧ '@' ∉ r) :
    parseHttps (build_https_url token h o r) = some (Transport.https, h, o, r) := by
  have hrest : ¬ endsDotGit (h ++ '/' :: o ++ '/' :: r) := by
    rw [show h ++ '/' :: o ++ '/' :: r = h ++ '/' :: (o ++ '/' :: r) by simp]
    exact endsDotGit_slash (endsDotGit_slash hg)
  have htrim : trimEndDotGit (h ++ '/' :: o ++ '/' :: r ++ ".git".data) =
      h ++ '/' :: o ++ '/' :: r := trimEndDotGit_append_git hrest
  by_cases ht : token = []
  · obtain ⟨ha1, ha2, ha3⟩ := hat ht
    have hnoat : '@' ∉ h ++ '/' :: o ++ '/' :: r ++ ".git".data := by
      simp [List.mem_append, List.mem_cons, ha1, ha2, ha3]
    have hurl : build_https_url token h o r =
        "https://".data ++ (h ++ '/' :: o ++ '/' :: r ++ ".git".data) := by
      simp [build_https_url, ht]
    have hd : dropPfx "https://".data (build_https_url token h o r) =
        some (h ++ '/' :: o ++ '/' :: r ++ ".git".data) := by
      rw [hurl, dropPfx_append]
    simp only [parseHttps, hd, stripCred_of_no_at hnoat, htrim,
      splitn3_append r hsl hso]
  · have hurl : build_https_url token h o r =
        "https://".data ++ (token ++ '@' :: (h ++ '/' :: o ++ '/' :: r ++ ".git".data)) := by
      simp [build_https_url, ht]
    have hd : dropPfx "https://".data (build_https_url token h o r) =
        some (token ++ '@' :: (h ++ '/' :: o ++ '/' :: r ++ ".git".data)) := by
      rw [hurl, dropPfx_append]
    simp only [parseHttps, hd,
      stripCred_append (h ++ '/' :: o ++ '/' :: r ++ ".git".data) (htok ht),
      htrim, splitn3_append r hsl hso]

theorem parse_build_https {token h o r : Str}
    (hsl : '/' ∉ h) (hso : '/' ∉ o) (hg : ¬ endsDotGit r)
    (htok : token ≠ [] → '@' ∉ token)
    (hat : token = [] → '@' ∉ h ∧ '@' ∉ o ∧ '@' ∉ r) :
    parse_remote_url (build_https_url token h o r) = some (Transport.https, h, o, r) := by
  have hssh : parseSsh (build_https_url token h o r) = none := by
    unfold build_https_url
    by_cases ht : token = []
    · rw [if_pos ht]
      exact parseSsh_https_none _
    · rw [if_neg ht]
      exact parseSsh_https_none _
  unfold parse_remote_url
  rw [hssh, parseHttps_build hsl hso hg htok hat]

/-! ### Inversion lemmas: what parsing guarantees about its output -/

theorem endsDotGit_tail {ow rp : Str} (hn : ¬ endsDotGit (ow ++ '/' :: rp)) :
    ¬ endsDotGit rp := by
  intro hr
  apply hn
  have hy := endsDotGit_of_append (ow ++ ['/']) hr
  rwa [show (ow ++ ['/']) ++ rp = ow ++ '/' :: rp by simp] at hy

theorem parseSsh_props {u : Str} {fmt : Transport} {h o r : Str}
    (hp : parseSsh u = some (fmt, h, o, r)) :
    fmt = Transport.ssh ∧ '/' ∉ o ∧ ¬ endsDotGit r := by
  unfold parseSsh at hp
  split at hp
  · exact absurd hp (by simp)
  · split at hp
    · exact absurd hp (by simp)
    · split at hp
      · exact absurd hp (by simp)
      · rename_i a2 raw_host path0 hs2 a3 owner repo hslash
        cases hp
        obtain ⟨heq, hslashfree⟩ := splitFirst_eq_some hslash
        refine ⟨rfl, hslashfree, ?_⟩
        have hne := not_endsDotGit_trimEndDotGit path0
        rw [heq] at hne
        exact endsDotGit_tail hne

theorem parseHttps_props {u : Str} {fmt : Transport} {h o r : Str}
    (hp : parseHttps u = some (fmt, h, o, r)) :
    fmt = Transport.https ∧ '/' ∉ o ∧ ¬ endsDotGit r := by
  unfold parseHttps at hp
  split at hp
  · exact absurd hp (by simp)
  · rename_i rest0 hdrop
    split at hp
    · rename_i a3 h3 o3 r3 hs3
      cases hp
      obtain ⟨heq, hh, ho⟩ := splitn3_inv hs3
      refine ⟨rfl, ho, ?_⟩
      have hne := not_endsDotGit_trimEndDotGit (stripCred rest0)
      rw [heq] at hne
      rw [show h ++ '/' :: o ++ '/' :: r = (h ++ '/' :: o) ++ '/' :: r by simp] at hne
      exact endsDotGit_tail hne
    · exact absurd hp (by simp)

theorem parse_props {u : Str} {fmt : Transport} {h o r : Str}
    (hp : parse_remote_url u = some (fmt, h, o, r)) :
    '/' ∉ o ∧ ¬ endsDotGit r := by
  unfold parse_remote_url at hp
  split at hp
  · rename_i res hssh
    cases hp
    obtain ⟨-, ho, hr⟩ := parseSsh_props hssh
    exact ⟨ho, hr⟩
  · obtain ⟨-, ho, hr⟩ := parseHttps_props hp
    exact ⟨ho, hr⟩

end GitId

namespace GitId

/-! ## Claim theorems -/

/-- C1 (counterexample): the round-trip claim fails as stated. For the
account alice with default host, owner "a/b" and repo "r", decomposing the
composed SSH URL does not return the original owner and repo: the owner is
cut at its first slash. -/
theorem c1_roundtrip_counterexample :
    parse_remote_url (build_ssh_url aliceKey "a/b".data "r".data) ≠
      some (Transport.ssh, effHost aliceKey, "a/b".data, "r".data) := by
  decide

/-- C1 (amended): the ssh round-trip `Decompose (Compose ssh A owner repo)
= (ssh, effHost A, owner, repo)` holds for every account whose username is
non-empty and contains no hyphen, dot or colon and whose effective host
contains no colon, and for every owner without a slash and every repo not
ending in ".git". -/
theorem c1_roundtrip_ssh (acc : Account) (O R : Str)
    (hu : acc.username ≠ [])
    (hdash : '-' ∉ acc.username) (hdot : '.' ∉ acc.username)
    (hcolU : ':' ∉ acc.username) (hcolH : ':' ∉ effHost acc)
    (hO : '/' ∉ O) (hR : ¬ endsDotGit R) :
    parse_remote_url (build_ssh_url acc O R) =
      some (Transport.ssh, effHost acc, O, R) := by
  have hcolon : ':' ∉ ssh_host_alias acc := by
    simp [ssh_host_alias, List.mem_append, List.mem_cons, hcolH, hcolU]
  unfold parse_remote_url
  rw [parseSsh_build hcolon hO hR, strip_alias hdash hdot]

/-- C1 (witness): the amended round-trip at the concrete account alice with
owner "alice" and repo "repo". -/
theorem c1_roundtrip_witness :
    parse_remote_url (build_ssh_url aliceKey "alice".data "repo".data) =
      some (Transport.ssh, effHost aliceKey, "alice".data, "repo".data) :=
  c1_roundtrip_ssh aliceKey "alice".data "repo".data (by decide) (by decide)
    (by decide) (by decide) (by decide) (by decide) (by decide)

/-- C6: SelectAccount with an `@` key compares the RAW stored host, so the
account stored with an empty host field is NOT found under its natural key
username@github.com, although that key equals the account's own account_id.
The claim says it is found; the code returns not-found. -/
theorem c6_lookup_empty_host :
    account_id accEmptyHost = "alice@github.com".data ∧
      find_account [accEmptyHost] "alice@github.com".data = FindResult.notFound := by
  decide

/-- C7: the duplicate gate of the add flow compares the RAW (username, host)
pair, so an account whose effective identity pair duplicates a stored one
(empty host versus literal "github.com") is inserted rather than rejected,
leaving two accounts with the same account_id in the directory. -/
theorem c7_duplicate_not_rejected :
    account_id accEmptyHost = account_id accGhHost ∧
      cmd_add_check [accEmptyHost] accGhHost =
        AddResult.added [accEmptyHost, accGhHost] := by
  decide

/-- C8 (counterexample): the https decomposition does not fail on a
remainder with four slash-separated segments; `splitn(3, '/')` caps the
split at three parts and the repo keeps the remaining slash. -/
theorem c8_counterexample :
    parse_remote_url "https://host/a/b/c".data =
      some (Transport.https, "host".data, "a".data, "b/c".data) := by
  decide

/-- C8 (amended): an https URL whose remainder has at least two slashes
decomposes into the first two parts as host and owner and the whole
remaining tail (slashes included) as repo, provided no component contains
'@', host and owner contain no slash, and the tail does not end in ".git". -/
theorem c8_https_decompose (h o r : Str)
    (hsl : '/' ∉ h) (hso : '/' ∉ o) (hg : ¬ endsDotGit r)
    (ha1 : '@' ∉ h) (ha2 : '@' ∉ o) (ha3 : '@' ∉ r) :
    parse_remote_url ("https://".data ++ h ++ '/' :: o ++ '/' :: r) =
      some (Transport.https, h, o, r) := by
  have hurl : "https://".data ++ h ++ '/' :: o ++ '/' :: r =
      "https://".data ++ (h ++ '/' :: o ++ '/' :: r) := by
    simp
  have hrest : ¬ endsDotGit (h ++ '/' :: o ++ '/' :: r) := by
    rw [show h ++ '/' :: o ++ '/' :: r = h ++ '/' :: (o ++ '/' :: r) by simp]
    exact endsDotGit_slash (endsDotGit_slash hg)
  have hnoat : '@' ∉ h ++ '/' :: o ++ '/' :: r := by
    simp [List.mem_append, List.mem_cons, ha1, ha2, ha3]
  have hssh : parseSsh ("https://".data ++ h ++ '/' :: o ++ '/' :: r) = none := by
    rw [hurl]
    exact parseSsh_https_none _
  have hd : dropPfx "https://".data ("https://".data ++ h ++ '/' :: o ++ '/' :: r) =
      some (h ++ '/' :: o ++ '/' :: r) := by
    rw [hurl, dropPfx_append]
  unfold parse_remote_url
  rw [hssh]
  simp only [parseHttps, hd, stripCred_of_no_at hnoat,
    trimEndDotGit_eq_self hrest, splitn3_append r hsl hso]

/-- C8 (witness): the amended https decomposition at host "host", owner "a"
and slash-containing repo "b/c". -/
theorem c8_https_decompose_witness :
    parse_remote_url ("https://".data ++ "host".data ++ '/' :: "a".data ++
        '/' :: "b/c".data) =
      some (Transport.https, "host".data, "a".data, "b/c".data) :=
  c8_https_decompose "host".data "a".data "b/c".data (by decide) (by decide)
    (by decide) (by decide) (by decide) (by decide)

/-- C4 (counterexample): in the example of the claim — remote origin at
git@github.com-alice:alice/repo.git with account alice — the code issues a
set-remote-url with the freshly composed URL (equal to the current one); it
performs no comparison with the current URL and produces no distinct
"unchanged" outcome. -/
theorem c4_counterexample :
    processRemote aliceKey false false "origin".data
        "git@github.com-alice:alice/repo.git".data =
      Outcome.setUrl "git@github.com-alice:alice/repo.git".data := by
  decide

/-- C4 (amended): for every processed remote whose URL parses, the loop
always issues a set-remote-url with the composed URL — with no check of
whether it differs from the current URL and no "unchanged" outcome. -/
theorem c4_always_set (acc : Account) (fs fh : Bool) (name url : Str)
    (fmt : Transport) (h o r : Str)
    (hne : url ≠ [])
    (hp : parse_remote_url url = some (fmt, h, o, r))
    (hsel : name = "origin".data ∨ (h = effHost acc ∧ o = acc.username) ∨
      List.isPrefixOf ("git@".data ++ ssh_host_alias acc ++ [':']) url = true) :
    setsUrl (processRemote acc fs fh name url) = true := by
  simp only [processRemote, hp, hne, hsel]
  cases fs <;> cases fh <;> cases fmt <;>
    by_cases hk : acc.ssh_key = [] <;>
      simp [hk, setsUrl, urlOf]

/-- C4 (amended, witness): the always-set behaviour at the example input. -/
theorem c4_always_set_witness :
    setsUrl (processRemote aliceKey false false "origin".data
      "git@github.com-alice:alice/repo.git".data) = true :=
  c4_always_set aliceKey false false "origin".data
    "git@github.com-alice:alice/repo.git".data Transport.ssh
    "github.com".data "alice".data "repo".data (by decide) (by decide)
    (Or.inl rfl)

/-- C5 (counterexample): with both transport flags set and an empty remote
list, the local flow still writes user.name and user.email and raises no
conflict failure — contradicting "neither config value is modified" and
"the failure is raised even when the remote list is empty". -/
theorem c5_counterexample :
    cmd_use_local aliceKey true true [] =
      [Event.setConfig "user.name".data aliceKey.username,
       Event.setConfig "user.email".data aliceKey.email] := by
  decide

/-- C5 (amended): with both transport flags set in local scope no remote URL
is ever modified, and when the remote list is non-empty the run consists of
the two git-config writes followed by the conflict failure — the failure is
raised after the commit-identity writes and only when remotes exist. -/
theorem c5_conflict_behaviour (acc : Account) (remotes : List (Str × Str)) :
    (cmd_use_local acc true true remotes).filter isSetRemote = [] ∧
      (remotes ≠ [] → cmd_use_local acc true true remotes =
        [Event.setConfig "user.name".data acc.username,
         Event.setConfig "user.email".data acc.email, Event.dieConflict]) := by
  unfold cmd_use_local remoteEvents
  by_cases hr : remotes = [] <;>
    simp [hr, isSetRemote]

/-- C5 (amended, witness): the conflict behaviour at a concrete account and
one concrete remote. -/
theorem c5_conflict_behaviour_witness :
    cmd_use_local aliceKey true true [("origin".data, "x".data)] =
      [Event.setConfig "user.name".data aliceKey.username,
       Event.setConfig "user.email".data aliceKey.email, Event.dieConflict] :=
  (c5_conflict_behaviour aliceKey [("origin".data, "x".data)]).2 (by decide)

/-- C9: for an account with empty ssh_key and forced SSH transport, every
processed remote with a parseable URL gets a warning-fallback outcome that
sets the HTTPS URL built from the account token and the parsed triple — the
remote is neither left untouched nor does the run fail. -/
theorem c9_ssh_fallback (acc : Account) (fh : Bool) (name url : Str)
    (fmt : Transport) (h o r : Str)
    (hkey : acc.ssh_key = [])
    (hne : url ≠ [])
    (hp : parse_remote_url url = some (fmt, h, o, r))
    (hsel : name = "origin".data ∨ (h = effHost acc ∧ o = acc.username) ∨
      List.isPrefixOf ("git@".data ++ ssh_host_alias acc ++ [':']) url = true) :
    processRemote acc true fh name url =
      Outcome.warnFallbackSet (build_https_url acc.https_token h o r) := by
  simp only [processRemote, hp, if_neg hne, if_pos hsel]
  simp [hkey]

/-- C9 (witness): the fallback at the token-bearing account carol on the
origin remote with an SSH URL. -/
theorem c9_ssh_fallback_witness :
    processRemote carolTok true false "origin".data
        "git@github.com:carol/repo.git".data =
      Outcome.warnFallbackSet (build_https_url carolTok.https_token
        "github.com".data "carol".data "repo".data) :=
  c9_ssh_fallback carolTok false "origin".data
    "git@github.com:carol/repo.git".data Transport.ssh "github.com".data
    "carol".data "repo".data (by decide) (by decide) (by decide) (Or.inl rfl)

/-- C10: a remote that is not named origin, whose URL does not start with
the account alias prefix, and whose parse (if any) does not match the
account's effective host and username, is never touched: the loop issues no
set-remote-url for it. -/
theorem c10_nonorigin_filter (acc : Account) (fs fh : Bool) (name url : Str)
    (hname : name ≠ "origin".data)
    (halias : ¬ List.isPrefixOf ("git@".data ++ ssh_host_alias acc ++ [':']) url = true)
    (hmatch : ∀ fmt h o r, parse_remote_url url = some (fmt, h, o, r) →
      ¬(h = effHost acc ∧ o = acc.username)) :
    setsUrl (processRemote acc fs fh name url) = false := by
  by_cases hne : url = []
  · simp [processRemote, hne, setsUrl, urlOf]
  · cases hp : parse_remote_url url with
    | none => simp [processRemote, hne, hp, setsUrl, urlOf]
    | some res =>
      obtain ⟨fmt, h, o, r⟩ := res
      have hfilter : ¬(name = "origin".data ∨ (h = effHost acc ∧ o = acc.username) ∨
          List.isPrefixOf ("git@".data ++ ssh_host_alias acc ++ [':']) url = true) := by
        rintro (h1 | h2 | h3)
        · exact hname h1
        · exact hmatch fmt h o r hp h2
        · exact halias h3
      simp only [processRemote, hp, if_neg hne, if_neg hfilter]
      simp [setsUrl, urlOf]

/-- A freshly composed SSH URL is a fixed point of the per-remote step,
provided the alias is colon-free, the owner slash-free, the repo does not
end in ".git", the key is configured, and https is not the forced target. -/
theorem sshUrl_fixed (acc : Account) (fs fh : Bool) (name o r : Str)
    (hcolon : ':' ∉ ssh_host_alias acc) (hO : '/' ∉ o) (hR : ¬ endsDotGit r)
    (hk : acc.ssh_key ≠ []) (hfl : fs = true ∨ (fs = false ∧ fh = false)) :
    processRemote acc fs fh name (build_ssh_url acc o r) =
      Outcome.setUrl (build_ssh_url acc o r) := by
  have hne : build_ssh_url acc o r ≠ [] := by
    simp [build_ssh_url]
  have hp1 : parse_remote_url (build_ssh_url acc o r) =
      some (Transport.ssh, strip_host_alias_suffix (ssh_host_alias acc), o, r) := by
    unfold parse_remote_url
    rw [parseSsh_build hcolon hO hR]
  have hsel : name = "origin".data ∨
      (strip_host_alias_suffix (ssh_host_alias acc) = effHost acc ∧ o = acc.username) ∨
      (("git@".data ++ ssh_host_alias acc ++ [':']).isPrefixOf
        (build_ssh_url acc o r) = true) := by
    refine Or.inr (Or.inr ?_)
    exact isPrefixOf_intro (o ++ '/' :: r ++ ".git".data) (by simp [build_ssh_url])
  simp only [processRemote, hp1, if_neg hne, if_pos hsel]
  rcases hfl with hfs | ⟨hfs, hfh⟩ <;> subst hfs <;> simp [hk]
  subst hfh
  simp [hk]

/-- A freshly composed HTTPS URL from the account token and a parsed triple
is preserved by the per-remote step: if the step writes any URL for it, it
writes the same URL back. -/
theorem httpsUrl_fixed (acc : Account) (fs fh : Bool) (name h o r : Str)
    (hsl : '/' ∉ h) (hO : '/' ∉ o) (hR : ¬ endsDotGit r)
    (hah : '@' ∉ h) (hao : '@' ∉ o) (har : '@' ∉ r)
    (htok : '@' ∉ acc.https_token)
    (hkey : fs = true → acc.ssh_key = []) :
    ∀ u2, urlOf (processRemote acc fs fh name
        (build_https_url acc.https_token h o r)) = some u2 →
      u2 = build_https_url acc.https_token h o r := by
  intro u2 hu2
  have hne : build_https_url acc.https_token h o r ≠ [] := by
    unfold build_https_url
    by_cases ht : acc.https_token = [] <;> simp [ht]
  have hp1 : parse_remote_url (build_https_url acc.https_token h o r) =
      some (Transport.https, h, o, r) :=
    parse_build_https hsl hO hR (fun _ => htok) (fun _ => ⟨hah, hao, har⟩)
  by_cases hfil : name = "origin".data ∨ (h = effHost acc ∧ o = acc.username) ∨
      (("git@".data ++ ssh_host_alias acc ++ [':']).isPrefixOf
        (build_https_url acc.https_token h o r) = true)
  · simp only [processRemote, hp1, if_neg hne, if_pos hfil] at hu2
    cases fs with
    | true =>
      have hkey' := hkey rfl
      simp [hkey', urlOf] at hu2
      exact hu2.symm
    | false =>
      cases fh with
      | true =>
        simp [urlOf] at hu2
        exact hu2.symm
      | false =>
        simp [urlOf] at hu2
        exact hu2.symm
  · simp only [processRemote, hp1, if_neg hne, if_neg hfil] at hu2
    simp [urlOf] at hu2

/-- C3 (counterexample): the idempotence claim fails as stated. With an
empty token and a parsed host that still contains '@', the URL composed on
the first run decomposes differently on the second run: the second run
composes yet another URL, so a processed remote changes again. -/
theorem c3_counterexample :
    urlOf (processRemote bobTok false true "origin".data
        "https://t@H@x/o/r.git".data) = some "https://H@x/o/r.git".data ∧
      urlOf (processRemote bobTok false true "origin".data
        "https://H@x/o/r.git".data) = some "https://x/o/r.git".data ∧
      "https://x/o/r.git".data ≠ "https://H@x/o/r.git".data := by
  decide

/-- C3 (amended): the per-remote step is idempotent on URLs provided the
account username and effective host are colon-free, the token contains no
'@', and the parsed host/owner/repo of the current URL contain no '@' with
a slash-free host: whatever URL the first run writes, a second run over
that URL writes nothing different. -/
theorem c3_idempotent (acc : Account) (fs fh : Bool) (name u0 u1 : Str)
    (fmt : Transport) (h o r : Str)
    (hcolU : ':' ∉ acc.username) (hcolH : ':' ∉ effHost acc)
    (htok : '@' ∉ acc.https_token)
    (hsl : '/' ∉ h) (hah : '@' ∉ h) (hao : '@' ∉ o) (har : '@' ∉ r)
    (hp : parse_remote_url u0 = some (fmt, h, o, r))
    (hrun1 : urlOf (processRemote acc fs fh name u0) = some u1) :
    ∀ u2, urlOf (processRemote acc fs fh name u1) = some u2 → u2 = u1 := by
  obtain ⟨hOo, hRr⟩ := parse_props hp
  have hcolon : ':' ∉ ssh_host_alias acc := by
    simp [ssh_host_alias, List.mem_append, List.mem_cons, hcolH, hcolU]
  have hne0 : u0 ≠ [] := by
    intro h0
    rw [h0] at hrun1
    simp [processRemote, urlOf] at hrun1
  have hfil0 : name = "origin".data ∨ (h = effHost acc ∧ o = acc.username) ∨
      (("git@".data ++ ssh_host_alias acc ++ [':']).isPrefixOf u0 = true) := by
    by_contra hf
    simp only [processRemote, hp, if_neg hne0, if_neg hf] at hrun1
    simp [urlOf] at hrun1
  simp only [processRemote, hp, if_neg hne0, if_pos hfil0] at hrun1
  cases fs with
  | true =>
    by_cases hk : acc.ssh_key = []
    · simp [hk, urlOf] at hrun1
      subst hrun1
      exact httpsUrl_fixed acc true fh name h o r hsl hOo hRr hah hao har htok
        (fun _ => hk)
    · simp [hk, urlOf] at hrun1
      subst hrun1
      intro u2 hu2
      rw [sshUrl_fixed acc true fh name o r hcolon hOo hRr hk (Or.inl rfl)] at hu2
      simp [urlOf] at hu2
      exact hu2.symm
  | false =>
    cases fh with
    | true =>
      simp [urlOf] at hrun1
      subst hrun1
      exact httpsUrl_fixed acc false true name h o r hsl hOo hRr hah hao har htok
        (fun hc => by cases hc)
    | false =>
      cases fmt with
      | ssh =>
        by_cases hk : acc.ssh_key = []
        · simp [hk, urlOf] at hrun1
          subst hrun1
          exact httpsUrl_fixed acc false false name h o r hsl hOo hRr hah hao har
            htok (fun hc => by cases hc)
        · simp [hk, urlOf] at hrun1
          subst hrun1
          intro u2 hu2
          rw [sshUrl_fixed acc false false name o r hcolon hOo hRr hk
            (Or.inr ⟨rfl, rfl⟩)] at hu2
          simp [urlOf] at hu2
          exact hu2.symm
      | https =>
        simp [urlOf] at hrun1
        subst hrun1
        exact httpsUrl_fixed acc false false name h o r hsl hOo hRr hah hao har
          htok (fun hc => by cases hc)

/-- C3 (witness): the amended idempotence at the account alice, unforced
transport, on the origin remote: the second run writes back exactly the URL
written by the first run. -/
theorem c3_idempotent_witness :
    "git@github.com-alice:alice/repo.git".data =
      "git@github.com-alice:alice/repo.git".data :=
  c3_idempotent aliceKey false false "origin".data
    "git@github.com:alice/repo.git".data
    "git@github.com-alice:alice/repo.git".data Transport.ssh
    "github.com".data "alice".data "repo".data (by decide) (by decide)
    (by decide) (by decide) (by decide) (by decide) (by decide) (by decide)
    (by decide) "git@github.com-alice:alice/repo.git".data (by decide)

/-- C10 (witness): a non-origin remote pointing at another owner's
repository is left untouched. -/
theorem c10_nonorigin_filter_witness :
    setsUrl (processRemote aliceKey false false "backup".data
      "git@github.com:bob/r.git".data) = false :=
  c10_nonorigin_filter aliceKey false false "backup".data
    "git@github.com:bob/r.git".data (by decide) (by decide)
    (fun fmt h o r hp => by
      have hcalc : parse_remote_url "git@github.com:bob/r.git".data =
          some (Transport.ssh, "github.com".data, "bob".data, "r".data) := by
        decide
      rw [hcalc] at hp
      cases hp
      decide)

end GitId

namespace GitId

/-! ### Occurrence toolkit for the stanza manager -/

theorem occurAt_length {pat : Str} (hne : pat ≠ []) {s : Str} {i : Nat}
    (h : occurAt pat s i) : i + pat.length ≤ s.length := by
  unfold occurAt at h
  have hl := congrArg List.length h
  have hpos : 0 < pat.length := List.length_pos.mpr hne
  simp [List.length_take, List.length_drop] at hl
  omega

theorem occurAt_get {pat s : Str} {i : Nat} (h : occurAt pat s i)
    {m : Nat} (hm : m < pat.length) : s[i + m]? = pat[m]? := by
  have hcalc : s[i + m]? = (s.drop i)[m]? := (List.getElem?_drop s i m).symm
  rw [hcalc, ← List.getElem?_take_of_lt hm (l := s.drop i)]
  unfold occurAt at h
  rw [h]

theorem occurAt_append_left {pat A X : Str} {j : Nat}
    (hj : j + pat.length ≤ A.length) :
    occurAt pat (A ++ X) j ↔ occurAt pat A j := by
  unfold occurAt
  have hd : (A ++ X).drop j = A.drop j ++ X := by
    rw [List.drop_append_of_le_length (by omega)]
  rw [hd]
  have ht : (A.drop j ++ X).take pat.length = (A.drop j).take pat.length := by
    rw [List.take_append_of_le_length (by simp [List.length_drop]; omega)]
  rw [ht]

theorem occurAt_append_right {pat A X : Str} {m : Nat} (h : occurAt pat X m) :
    occurAt pat (A ++ X) (A.length + m) := by
  unfold occurAt at h ⊢
  have hd : (A ++ X).drop (A.length + m) = X.drop m := by
    have h1 : ((A ++ X).drop A.length).drop m = (A ++ X).drop (A.length + m) := by
      rw [List.drop_drop]
      try congr 1
      try omega
    rw [← h1, List.drop_left]
  rw [hd, h]

theorem occurAt_self_append {pat Y : Str} (A : Str) :
    occurAt pat (A ++ (pat ++ Y)) A.length := by
  have h0 : occurAt pat (pat ++ Y) 0 := by
    unfold occurAt
    simp [List.take_left]
  simpa using occurAt_append_right (A := A) h0

theorem occur_overlap {pat s : Str} {j i : Nat}
    (hj : occurAt pat s j) (hi : occurAt pat s i) (hji : j < i)
    (hover : i < j + pat.length) :
    ∃ k, 0 < k ∧ k < pat.length ∧
      pat.take k = pat.drop (pat.length - k) := by
  refine ⟨pat.length - (i - j), by omega, by omega, ?_⟩
  apply List.ext_getElem?_iff.mpr
  intro m
  by_cases hm : m < pat.length - (i - j)
  · rw [List.getElem?_take_of_lt hm]
    have h1 : pat[m]? = s[i + m]? := (occurAt_get hi (by omega)).symm
    have h2 : (pat.drop (pat.length - (pat.length - (i - j))))[m]? =
        pat[(pat.length - (pat.length - (i - j))) + m]? := by
      rw [List.getElem?_drop]
    rw [h2]
    have h3 : pat[(pat.length - (pat.length - (i - j))) + m]? =
        s[j + ((pat.length - (pat.length - (i - j))) + m)]? :=
      (occurAt_get hj (by omega)).symm
    rw [h1, h3]
    congr 1
    omega
  · have h1 : (pat.take (pat.length - (i - j)))[m]? = none := by
      apply List.getElem?_eq_none_iff.mpr
      simp [List.length_take]
      omega
    have h2 : (pat.drop (pat.length - (pat.length - (i - j))))[m]? = none := by
      apply List.getElem?_eq_none_iff.mpr
      simp [List.length_drop]
      omega
    rw [h1, h2]

theorem firstOcc_some_iff {pat : Str} (hne : pat ≠ []) {s : Str} {i : Nat} :
    firstOcc pat s = some i ↔
      occurAt pat s i ∧ ∀ j < i, ¬ occurAt pat s j := by
  induction s generalizing i with
  | nil =>
    simp only [firstOcc, if_neg hne]
    constructor
    · intro hc
      cases hc
    · rintro ⟨hocc, -⟩
      have hpos : 0 < pat.length := List.length_pos.mpr hne
      have hlen := occurAt_length hne hocc
      have hlen0 : i + pat.length ≤ 0 := hlen
      omega
  | cons c cs ih =>
    rw [firstOcc]
    by_cases h0 : (c :: cs).take pat.length = pat
    · rw [if_pos h0]
      constructor
      · intro hc
        injection hc with hc
        subst hc
        exact ⟨h0, by omega⟩
      · rintro ⟨hocc, hmin⟩
        cases i with
        | zero => rfl
        | succ n =>
          exact absurd (show occurAt pat (c :: cs) 0 from h0) (hmin 0 (by omega))
    · rw [if_neg h0]
      constructor
      · intro hc
        rw [Option.map_eq_some'] at hc
        obtain ⟨i', hi', rfl⟩ := hc
        obtain ⟨hocc', hmin'⟩ := (ih).mp hi'
        refine ⟨hocc', ?_⟩
        intro j hj
        cases j with
        | zero => exact fun hcon => h0 hcon
        | succ m => exact fun hcon => hmin' m (by omega) hcon
      · rintro ⟨hocc, hmin⟩
        cases i with
        | zero => exact absurd hocc h0
        | succ n =>
          have hocc' : occurAt pat cs n := hocc
          have hmin' : ∀ j < n, ¬ occurAt pat cs j := by
            intro j hj hcon
            exact hmin (j + 1) (by omega) hcon
          rw [(ih).mpr ⟨hocc', hmin'⟩]
          rfl

theorem firstOcc_none_iff {pat : Str} (hne : pat ≠ []) {s : Str} :
    firstOcc pat s = none ↔ ∀ i, ¬ occurAt pat s i := by
  have fwd : ∀ s : Str, firstOcc pat s = none → ∀ i, ¬ occurAt pat s i := by
    intro s
    induction s with
    | nil =>
      intro _ i hocc
      have hpos : 0 < pat.length := List.length_pos.mpr hne
      have hlen := occurAt_length hne hocc
      have hlen0 : i + pat.length ≤ 0 := hlen
      omega
    | cons c cs ih =>
      intro hn i hocc
      rw [firstOcc] at hn
      by_cases h0 : (c :: cs).take pat.length = pat
      · rw [if_pos h0] at hn
        cases hn
      · rw [if_neg h0] at hn
        simp only [Option.map_eq_none'] at hn
        cases i with
        | zero => exact h0 hocc
        | succ m => exact ih hn m hocc
  constructor
  · exact fwd s
  · intro hall
    cases hf : firstOcc pat s with
    | none => rfl
    | some p =>
      obtain ⟨hocc, -⟩ := (firstOcc_some_iff hne).mp hf
      exact absurd hocc (hall p)

theorem firstOcc_boundary {pat A X : Str} (hne : pat ≠ [])
    (hX : occurAt pat (A ++ X) A.length)
    (hinA : ∀ j, j + pat.length ≤ A.length → ¬ occurAt pat (A ++ X) j)
    (hborder : ∀ k, 0 < k → k < pat.length →
      pat.take k ≠ pat.drop (pat.length - k)) :
    firstOcc pat (A ++ X) = some A.length := by
  rw [firstOcc_some_iff hne]
  refine ⟨hX, fun j hj hocc => ?_⟩
  by_cases hfull : j + pat.length ≤ A.length
  · exact hinA j hfull hocc
  · obtain ⟨k, hk0, hklen, hkeq⟩ := occur_overlap hocc hX hj (by omega)
    exact hborder k hk0 hklen hkeq

end GitId

namespace GitId

/-! ### Splice lemmas for the stanza manager -/

theorem firstOcc_end_concat {endM SP : Str} (B : Str) (hEne : endM ≠ [])
    (honly : ∀ i, occurAt endM (SP ++ (endM ++ ['\n'])) i → i = SP.length) :
    firstOcc endM ((SP ++ (endM ++ ['\n'])) ++ B) = some SP.length := by
  rw [firstOcc_some_iff hEne]
  have hassoc : (SP ++ (endM ++ ['\n'])) ++ B = SP ++ (endM ++ ('\n' :: B)) := by
    simp
  constructor
  · rw [hassoc]
    exact occurAt_self_append SP
  · intro j hj hocc
    have hlen : j + endM.length ≤ (SP ++ (endM ++ ['\n'])).length := by
      have hE : 0 < endM.length := List.length_pos.mpr hEne
      simp [List.length_append]
      omega
    have hocc' : occurAt endM (SP ++ (endM ++ ['\n'])) j :=
      (occurAt_append_left hlen).mp hocc
    have := honly j hocc'
    omega

theorem trimNlRev_split (r : Str) :
    ∃ k, r = List.replicate k '\n' ++ trimNlRev r := by
  induction r with
  | nil => exact ⟨0, rfl⟩
  | cons c cs ih =>
    by_cases hcn : c = '\n'
    · obtain ⟨k, hk⟩ := ih
      subst hcn
      refine ⟨k + 1, ?_⟩
      rw [show trimNlRev ('\n' :: cs) = trimNlRev cs by rw [trimNlRev, if_pos rfl]]
      rw [List.replicate_succ]
      simp [← hk]
    · refine ⟨0, ?_⟩
      rw [show trimNlRev (c :: cs) = c :: cs by rw [trimNlRev, if_neg hcn]]
      rfl

theorem trimEndNl_decomp (t : Str) :
    ∃ k, t = trimEndNl t ++ List.replicate k '\n' := by
  obtain ⟨k, hk⟩ := trimNlRev_split t.reverse
  refine ⟨k, ?_⟩
  unfold trimEndNl
  conv_lhs => rw [← List.reverse_reverse t, hk]
  rw [List.reverse_append, List.reverse_replicate]

theorem replace_stanza_fixed {start endM SP B A : Str}
    (hEne : endM ≠ [])
    (honly : ∀ i, occurAt endM (SP ++ (endM ++ ['\n'])) i → i = SP.length)
    (hfo : firstOcc start (A ++ ((SP ++ (endM ++ ['\n'])) ++ B)) = some A.length) :
    replace_stanza (A ++ ((SP ++ (endM ++ ['\n'])) ++ B)) start endM
      (SP ++ (endM ++ ['\n'])) = A ++ ((SP ++ (endM ++ ['\n'])) ++ B) := by
  have hdropA : (A ++ ((SP ++ (endM ++ ['\n'])) ++ B)).drop A.length =
      (SP ++ (endM ++ ['\n'])) ++ B := List.drop_left _ _
  have hend := firstOcc_end_concat B hEne honly
  have hnl : (A ++ ((SP ++ (endM ++ ['\n'])) ++ B))[A.length + SP.length +
      endM.length]? = some '\n' := by
    rw [show A ++ ((SP ++ (endM ++ ['\n'])) ++ B) =
      (A ++ SP ++ endM) ++ '\n' :: B by simp]
    rw [List.getElem?_append_right (by simp [List.length_append]; omega)]
    have hidx : A.length + SP.length + endM.length -
        (A ++ SP ++ endM).length = 0 := by
      simp [List.length_append]
      omega
    rw [hidx]
    simp
  have htake : (A ++ ((SP ++ (endM ++ ['\n'])) ++ B)).take A.length = A :=
    List.take_left _ _
  have hdropEnd : List.drop (A.length + SP.length + endM.length + 1)
      (A ++ (SP ++ (endM ++ '\n' :: B))) = B := by
    rw [show A ++ (SP ++ (endM ++ '\n' :: B)) =
      (A ++ (SP ++ (endM ++ ['\n']))) ++ B by simp]
    exact List.drop_left' (by simp [List.length_append]; omega)
  simp only [replace_stanza, hfo, hdropA, hend, hnl, htake]
  simp [hdropEnd]

end GitId

namespace GitId

theorem markerS_ne_nil (id : Str) : markerS id ≠ [] := by
  simp [markerS]

theorem markerE_ne_nil (id : Str) : markerE id ≠ [] := by
  simp [markerE]

/-- Core fixed-point lemma: a text of the form `A ++ (stanza ++ B)` where no
full occurrence of the start marker lies inside `A` is left unchanged by the
upsert step, provided the start marker has no newline and no self-overlap
and the end marker occurs in the stanza only at its final position. -/
theorem step_fixed_general (acc : Account) (A B : Str)
    (h1 : '\n' ∉ markerS (account_id acc))
    (h3 : ∀ i < (make_stanza acc).length,
      occurAt (markerE (account_id acc)) (make_stanza acc) i →
        i = (make_stanza acc).length - (markerE (account_id acc)).length - 1)
    (h4 : ∀ k < (markerS (account_id acc)).length, 0 < k →
      (markerS (account_id acc)).take k ≠
        (markerS (account_id acc)).drop ((markerS (account_id acc)).length - k))
    (hinA : ∀ j, j + (markerS (account_id acc)).length ≤ A.length →
      ¬ occurAt (markerS (account_id acc)) A j) :
    update_ssh_config_step (A ++ (make_stanza acc ++ B)) acc =
      A ++ (make_stanza acc ++ B) := by
  have hSne := markerS_ne_nil (account_id acc)
  have hEne := markerE_ne_nil (account_id acc)
  obtain ⟨I, hSP⟩ : ∃ I, make_stanza acc =
      (markerS (account_id acc) ++ '\n' :: I) ++
        (markerE (account_id acc) ++ ['\n']) := by
    refine ⟨"Host ".data ++ ssh_host_alias acc ++ "\n    HostName ".data ++
      effHost acc ++ "\n    User git\n    IdentityFile ".data ++
        stanzaKeyfile acc ++ "\n    IdentitiesOnly yes\n".data, ?_⟩
    simp [make_stanza, List.append_assoc]
  have honly : ∀ i, occurAt (markerE (account_id acc))
      ((markerS (account_id acc) ++ '\n' :: I) ++
        (markerE (account_id acc) ++ ['\n'])) i →
      i = (markerS (account_id acc) ++ '\n' :: I).length := by
    intro i hocc
    have hocc' : occurAt (markerE (account_id acc)) (make_stanza acc) i := by
      rw [hSP]
      exact hocc
    have hlen := occurAt_length hEne hocc'
    have hpos := List.length_pos.mpr hEne
    have hlt : i < (make_stanza acc).length := by omega
    have hval := h3 i hlt hocc'
    have hS : (make_stanza acc).length =
        (markerS (account_id acc) ++ '\n' :: I).length +
          ((markerE (account_id acc)).length + 1) := by
      rw [hSP]
      simp [List.length_append]
      omega
    omega
  have hX : occurAt (markerS (account_id acc))
      (A ++ (make_stanza acc ++ B)) A.length := by
    rw [show make_stanza acc ++ B = markerS (account_id acc) ++
      ('\n' :: (I ++ (markerE (account_id acc) ++ '\n' :: B))) by
        rw [hSP]; simp]
    exact occurAt_self_append A
  have hinA' : ∀ j, j + (markerS (account_id acc)).length ≤ A.length →
      ¬ occurAt (markerS (account_id acc)) (A ++ (make_stanza acc ++ B)) j := by
    intro j hj hocc
    exact hinA j hj ((occurAt_append_left hj).mp hocc)
  have hborder : ∀ k, 0 < k → k < (markerS (account_id acc)).length →
      (markerS (account_id acc)).take k ≠
        (markerS (account_id acc)).drop ((markerS (account_id acc)).length - k) :=
    fun k hk0 hkL => h4 k hkL hk0
  have hfo := firstOcc_boundary hSne hX hinA' hborder
  have hcontains : containsStr (A ++ (make_stanza acc ++ B))
      (markerS (account_id acc)) = true := by
    unfold containsStr
    rw [hfo]
    rfl
  simp only [update_ssh_config_step, if_pos hcontains]
  rw [hSP] at hfo ⊢
  exact replace_stanza_fixed hEne honly hfo

end GitId

namespace GitId

set_option maxRecDepth 10000 in
/-- C2 (counterexample): the upsert step is not idempotent for every
account: an account whose ssh_key embeds its own end marker makes the
second application cut the stanza at the injected marker, producing
different text than the first application. -/
theorem c2_upsert_counterexample :
    update_ssh_config_step (update_ssh_config_step [] injAcc) injAcc ≠
      update_ssh_config_step [] injAcc := by
  decide

/-- C2 (amended): the upsert step is idempotent on every existing text for
every account whose markers are injection-free: the start marker contains
no newline and has no self-overlap, and the end marker occurs in the
rendered stanza only at its final position. -/
theorem c2_upsert_idempotent (acc : Account) (t : Str)
    (h1 : '\n' ∉ markerS (account_id acc))
    (h3 : ∀ i < (make_stanza acc).length,
      occurAt (markerE (account_id acc)) (make_stanza acc) i →
        i = (make_stanza acc).length - (markerE (account_id acc)).length - 1)
    (h4 : ∀ k < (markerS (account_id acc)).length, 0 < k →
      (markerS (account_id acc)).take k ≠
        (markerS (account_id acc)).drop ((markerS (account_id acc)).length - k)) :
    update_ssh_config_step (update_ssh_config_step t acc) acc =
      update_ssh_config_step t acc := by
  have hSne := markerS_ne_nil (account_id acc)
  have hEne := markerE_ne_nil (account_id acc)
  by_cases hc : containsStr t (markerS (account_id acc)) = true
  · cases hf : firstOcc (markerS (account_id acc)) t with
    | none =>
      unfold containsStr at hc
      rw [hf] at hc
      cases hc
    | some p =>
      have hstep1 : update_ssh_config_step t acc =
          replace_stanza t (markerS (account_id acc))
            (markerE (account_id acc)) (make_stanza acc) := by
        simp only [update_ssh_config_step, if_pos hc]
      obtain ⟨hocc_p, hmin⟩ := (firstOcc_some_iff hSne).mp hf
      cases hfe : firstOcc (markerE (account_id acc)) (t.drop p) with
      | none =>
        have hrep : replace_stanza t (markerS (account_id acc))
            (markerE (account_id acc)) (make_stanza acc) = t := by
          simp only [replace_stanza, hf, hfe]
        have hid : update_ssh_config_step t acc = t := hstep1.trans hrep
        rw [hid]
        exact hid
      | some e =>
        have hplen := occurAt_length hSne hocc_p
        have hAlen : (t.take p).length = p := by
          simp [List.length_take]
          omega
        have hinA : ∀ j, j + (markerS (account_id acc)).length ≤
            (t.take p).length → ¬ occurAt (markerS (account_id acc)) (t.take p) j := by
          intro j hj hocc
          rw [hAlen] at hj
          have hLpos := List.length_pos.mpr hSne
          have hocc_t : occurAt (markerS (account_id acc)) t j := by
            rw [← List.take_append_drop p t]
            exact (occurAt_append_left (by rw [hAlen]; omega)).mpr hocc
          exact hmin j (by omega) hocc_t
        rw [hstep1]
        simp only [replace_stanza, hf, hfe]
        rw [List.append_assoc]
        exact step_fixed_general acc _ _ h1 h3 h4 hinA
  · have hf : firstOcc (markerS (account_id acc)) t = none := by
      unfold containsStr at hc
      cases hff : firstOcc (markerS (account_id acc)) t with
      | none => rfl
      | some q =>
        rw [hff] at hc
        simp at hc
    have hnone := (firstOcc_none_iff hSne).mp hf
    have hstep1 : update_ssh_config_step t acc =
        trimEndNl t ++ '\n' :: '\n' :: make_stanza acc := by
      simp only [update_ssh_config_step, if_neg hc]
    have hshape : trimEndNl t ++ '\n' :: '\n' :: make_stanza acc =
        (trimEndNl t ++ ['\n', '\n']) ++ (make_stanza acc ++ []) := by
      simp
    have hinA : ∀ j, j + (markerS (account_id acc)).length ≤
        (trimEndNl t ++ ['\n', '\n']).length →
        ¬ occurAt (markerS (account_id acc)) (trimEndNl t ++ ['\n', '\n']) j := by
      intro j hj hocc
      have hAlen : (trimEndNl t ++ ['\n', '\n']).length =
          (trimEndNl t).length + 2 := by
        simp
      by_cases hcase : j + (markerS (account_id acc)).length ≤ (trimEndNl t).length
      · have hocc' : occurAt (markerS (account_id acc)) (trimEndNl t) j :=
          (occurAt_append_left hcase).mp hocc
        obtain ⟨k, hk⟩ := trimEndNl_decomp t
        have hocc_t : occurAt (markerS (account_id acc)) t j := by
          rw [hk]
          exact (occurAt_append_left hcase).mpr hocc'
        exact hnone j hocc_t
      · have hL := List.length_pos.mpr hSne
        have hidx1 : (trimEndNl t).length ≤ j + ((markerS (account_id acc)).length - 1) := by
          omega
        have hval : (trimEndNl t ++ ['\n', '\n'])[j +
            ((markerS (account_id acc)).length - 1)]? = some '\n' := by
          rw [List.getElem?_append_right hidx1]
          have hd : j + ((markerS (account_id acc)).length - 1) -
              (trimEndNl t).length < 2 := by
            rw [hAlen] at hj
            omega
          have hsmall : ∀ d < 2, (['\n', '\n'] : Str)[d]? = some '\n' := by
            decide
          exact hsmall _ hd
        have hget := occurAt_get hocc
          (m := (markerS (account_id acc)).length - 1) (by omega)
        rw [hval] at hget
        exact h1 (List.getElem?_mem hget.symm)
    have hfix := step_fixed_general acc (trimEndNl t ++ ['\n', '\n']) [] h1 h3 h4 hinA
    rw [hstep1, hshape]
    exact hfix

set_option maxRecDepth 10000 in
/-- C2 (witness): idempotence of the upsert step at the concrete account
alice on the empty config text. -/
theorem c2_upsert_idempotent_witness :
    update_ssh_config_step (update_ssh_config_step [] aliceKey) aliceKey =
      update_ssh_config_step [] aliceKey :=
  c2_upsert_idempotent aliceKey [] (by decide) (by decide) (by decide)

end GitId
